import Mathlib

/-!
Verification development for the grammarinator fuzzer compiler
(`src/grammarinator/process.py`).

The development shallowly embeds the parts of `process.py` that the claims
are about:

* the grammar graph and its minimum-depth solver
  (`GrammarGraph.calc_min_depths`, lines 29-93),
* selected emitter fragments of `FuzzerGenerator.generate_single`
  (EBNF suffix handling, alternation lists, character ranges),
* the final assembly and file output (`FuzzerGenerator.generate`,
  `FuzzerFactory.generate_fuzzer`),
* the walk order of `FuzzerGenerator.generate` and the
  `token_start_ranges` lookup of `chars_from_set`.

Python `inf` is modelled by `⊤ : WithTop ℕ` (the depth values are
non-negative integers or `inf`); python dicts keyed by vertex ids are
modelled by functions `String → _` together with the key list `ids`
(dict keys, in insertion order); fallible python code (assertions,
KeyError, AttributeError) is modelled with `Except String`.
-/

namespace Grammarinator

/-- The four vertex classes of the grammar graph: `RuleNode`,
`AlternationNode`, `AlternativeNode`, `QuantifierNode` (process.py 36-49). -/
inductive NodeKind
  | rule
  | alternation
  | alternative
  | quantifier
deriving DecidableEq

/-- The grammar graph (process.py 52-63): `ids` are the keys of the
`vertices` dict in insertion order, `kind` gives each vertex's class and
`out` its `out_neighbours` (as ids, in append order). `add_edge` asserts
both endpoints exist, so every out-neighbour of a vertex is itself a key
of the dict. -/
structure GrammarGraph where
  ids : List String
  kind : String → NodeKind
  out : String → List String

/-- One summand of the list comprehension in `calc_min_depths`
(process.py 73): `min_depths[node.id] + int(isinstance(..., RuleNode))`. -/
def child_term (g : GrammarGraph) (m : String → WithTop ℕ) (c : String) : WithTop ℕ :=
  m c + (if g.kind c = NodeKind.rule then 1 else 0)

/-- The children over which vertex `i`'s depth is aggregated: its
out-neighbours with `QuantifierNode` children filtered out of the
comprehension (process.py 74). -/
def rec_children (g : GrammarGraph) (i : String) : List String :=
  (g.out i).filter (fun c => decide (¬ g.kind c = NodeKind.quantifier))

/-- The value `selector([...], default=0)` recomputed for vertex `i` in one
iteration of `calc_min_depths` (process.py 72-74): `min` over the list for
an `AlternationNode`, `max` otherwise; an empty list yields the default 0.
(`max` of a non-empty list of values that are all `≥ 0` is folded from 0.) -/
def recompute (g : GrammarGraph) (m : String → WithTop ℕ) (i : String) : WithTop ℕ :=
  if g.kind i = NodeKind.alternation then
    if (rec_children g i).isEmpty then 0
    else ((rec_children g i).map (child_term g m)).foldl min ⊤
  else
    ((rec_children g i).map (child_term g m)).foldl max 0

/-- Writing one entry of the `min_depths` dict: `min_depths[i] = d`. -/
def updMap (m : String → WithTop ℕ) (i : String) (d : WithTop ℕ) : String → WithTop ℕ :=
  fun j => if j = i then d else m j

/-- The body of the inner `for ident in self.vertices` loop of
`calc_min_depths` (process.py 71-78): recompute the depth of `i` and store
it (setting the `changed` flag) exactly when it strictly decreased. -/
def updateVertex (g : GrammarGraph) (st : (String → WithTop ℕ) × Bool) (i : String) :
    (String → WithTop ℕ) × Bool :=
  if recompute g st.1 i < st.1 i then (updMap st.1 i (recompute g st.1 i), true) else st

/-- One full pass of the `while changed` loop of `calc_min_depths`
(process.py 69-78), starting with `changed = False`: rescan every vertex in
dict order, threading the updated `min_depths` map. -/
def depthPass (g : GrammarGraph) (m : String → WithTop ℕ) : (String → WithTop ℕ) × Bool :=
  g.ids.foldl (updateVertex g) (m, false)

/-- Termination measure, first component: how many of the tracked vertices
still hold `inf`. -/
def tcount (l : List String) (m : String → WithTop ℕ) : ℕ :=
  l.countP (fun j => decide (m j = ⊤))

/-- Termination measure, second component: the sum of the finite depth
values (an `inf` entry counts 0). -/
def fsum (l : List String) (m : String → WithTop ℕ) : ℕ :=
  (l.map (fun j => WithTop.untop' 0 (m j))).sum

/-- Strict lexicographic order on the measure pairs. -/
def LexLt (a b : ℕ × ℕ) : Prop := a.1 < b.1 ∨ (a.1 = b.1 ∧ a.2 < b.2)

theorem LexLt_trans {a b c : ℕ × ℕ} (h1 : LexLt a b) (h2 : LexLt b c) : LexLt a c := by
  unfold LexLt at *
  omega

theorem tcount_mono (m m' : String → WithTop ℕ) (h : ∀ j, m' j = ⊤ → m j = ⊤) :
    ∀ l : List String, tcount l m' ≤ tcount l m := by
  intro l
  induction l with
  | nil => simp [tcount]
  | cons a t ih =>
    simp only [tcount, List.countP_cons] at ih ⊢
    by_cases ha : m' a = ⊤
    · simp [ha, h a ha]
      omega
    · by_cases ha2 : m a = ⊤ <;> simp [ha, ha2] <;> omega

theorem tcount_lt (m m' : String → WithTop ℕ) (i : String)
    (h : ∀ j, m' j = ⊤ → m j = ⊤) (hti : m i = ⊤) (hti' : ¬ m' i = ⊤) :
    ∀ l : List String, i ∈ l → tcount l m' < tcount l m := by
  intro l
  induction l with
  | nil => intro hi; cases hi
  | cons a t ih =>
    intro hi
    simp only [tcount, List.countP_cons] at ih ⊢
    rcases List.mem_cons.mp hi with rfl | hit
    · have := tcount_mono m m' h t
      simp only [tcount] at this
      simp [hti, hti']
      omega
    · have hmem := ih hit
      by_cases ha : m' a = ⊤
      · simp [ha, h a ha]; omega
      · by_cases ha2 : m a = ⊤ <;> simp [ha, ha2] <;> omega

theorem tcount_congr (m m' : String → WithTop ℕ) (h : ∀ j, m' j = ⊤ ↔ m j = ⊤) :
    ∀ l : List String, tcount l m' = tcount l m := by
  intro l
  induction l with
  | nil => simp [tcount]
  | cons a t ih =>
    simp only [tcount, List.countP_cons] at ih ⊢
    by_cases ha : m' a = ⊤
    · simp [ha, (h a).mp ha, ih]
    · have : ¬ m a = ⊤ := fun hc => ha ((h a).mpr hc)
      simp [ha, this, ih]

theorem fsum_mono (m m' : String → WithTop ℕ)
    (h : ∀ j, WithTop.untop' 0 (m' j) ≤ WithTop.untop' 0 (m j)) :
    ∀ l : List String, fsum l m' ≤ fsum l m := by
  intro l
  induction l with
  | nil => simp [fsum]
  | cons a t ih =>
    simp only [fsum, List.map_cons, List.sum_cons] at ih ⊢
    have := h a
    omega

theorem fsum_lt (m m' : String → WithTop ℕ) (i : String)
    (h : ∀ j, WithTop.untop' 0 (m' j) ≤ WithTop.untop' 0 (m j))
    (hlt : WithTop.untop' 0 (m' i) < WithTop.untop' 0 (m i)) :
    ∀ l : List String, i ∈ l → fsum l m' < fsum l m := by
  intro l
  induction l with
  | nil => intro hi; cases hi
  | cons a t ih =>
    intro hi
    simp only [fsum, List.map_cons, List.sum_cons] at ih ⊢
    rcases List.mem_cons.mp hi with rfl | hit
    · have := fsum_mono m m' h t
      simp only [fsum] at this
      omega
    · have := h a
      have := ih hit
      omega

theorem upd_measure_lt (g : GrammarGraph) (m : String → WithTop ℕ) (i : String)
    (d : WithTop ℕ) (hi : i ∈ g.ids) (hlt : d < m i) :
    LexLt (tcount g.ids (updMap m i d), fsum g.ids (updMap m i d))
      (tcount g.ids m, fsum g.ids m) := by
  have hdne : d ≠ ⊤ := ne_top_of_lt hlt
  have hne : ∀ j, j ≠ i → updMap m i d j = m j := by
    intro j hj; simp [updMap, hj]
  have hup : updMap m i d i = d := by simp [updMap]
  by_cases htop : m i = ⊤
  · left
    refine tcount_lt m (updMap m i d) i ?_ htop ?_ g.ids hi
    · intro j hj
      by_cases hji : j = i
      · subst hji; rw [hup] at hj; exact absurd hj hdne
      · rw [hne j hji] at hj; exact hj
    · rw [hup]; exact hdne
  · right
    constructor
    · refine tcount_congr m (updMap m i d) ?_ g.ids
      intro j
      by_cases hji : j = i
      · subst hji; rw [hup]; exact ⟨fun hj => absurd hj hdne, fun hj => absurd hj htop⟩
      · rw [hne j hji]
    · obtain ⟨a, ha⟩ := WithTop.ne_top_iff_exists.mp hdne
      obtain ⟨b, hb⟩ := WithTop.ne_top_iff_exists.mp htop
      have hmono : ∀ j, WithTop.untop' 0 (updMap m i d j) ≤ WithTop.untop' 0 (m j) := by
        intro j
        by_cases hji : j = i
        · subst hji
          rw [hup, ← ha, ← hb, WithTop.untop'_coe, WithTop.untop'_coe]
          exact le_of_lt (WithTop.coe_lt_coe.mp (ha ▸ hb ▸ hlt))
        · rw [hne j hji]
      refine fsum_lt m (updMap m i d) i hmono ?_ g.ids hi
      rw [hup, ← ha, ← hb, WithTop.untop'_coe, WithTop.untop'_coe]
      exact WithTop.coe_lt_coe.mp (ha ▸ hb ▸ hlt)

theorem updateVertex_cases (g : GrammarGraph) (st : (String → WithTop ℕ) × Bool) (i : String) :
    (¬ recompute g st.1 i < st.1 i ∧ updateVertex g st i = st) ∨
    (recompute g st.1 i < st.1 i ∧
      updateVertex g st i = (updMap st.1 i (recompute g st.1 i), true)) := by
  by_cases h : recompute g st.1 i < st.1 i
  · right; exact ⟨h, by simp [updateVertex, h]⟩
  · left; exact ⟨h, by simp [updateVertex, h]⟩

theorem foldl_update_flag_mono (g : GrammarGraph) :
    ∀ (l : List String) (st : (String → WithTop ℕ) × Bool), st.2 = true →
      (l.foldl (updateVertex g) st).2 = true := by
  intro l
  induction l with
  | nil => intro st h; exact h
  | cons a t ih =>
    intro st h
    rw [List.foldl_cons]
    rcases updateVertex_cases g st a with ⟨_, heq⟩ | ⟨_, heq⟩
    · rw [heq]; exact ih st h
    · rw [heq]; exact ih _ rfl

theorem foldl_update_cases (g : GrammarGraph) :
    ∀ (l : List String) (st : (String → WithTop ℕ) × Bool), (∀ i ∈ l, i ∈ g.ids) →
      (l.foldl (updateVertex g) st = st) ∨
      ((l.foldl (updateVertex g) st).2 = true ∧
        LexLt
          (tcount g.ids (l.foldl (updateVertex g) st).1,
            fsum g.ids (l.foldl (updateVertex g) st).1)
          (tcount g.ids st.1, fsum g.ids st.1)) := by
  intro l
  induction l with
  | nil => intro st _; left; rfl
  | cons a t ih =>
    intro st hmem
    rw [List.foldl_cons]
    rcases updateVertex_cases g st a with ⟨_, heq⟩ | ⟨hlt, heq⟩
    · rw [heq]
      exact ih st (fun i hi => hmem i (List.mem_cons_of_mem a hi))
    · rw [heq]
      have hm := upd_measure_lt g st.1 a (recompute g st.1 a) (hmem a (List.mem_cons_self a t)) hlt
      rcases ih (updMap st.1 a (recompute g st.1 a), true)
          (fun i hi => hmem i (List.mem_cons_of_mem a hi)) with heq2 | ⟨hflag, hlex⟩
      · right
        rw [heq2]
        exact ⟨rfl, hm⟩
      · right
        exact ⟨hflag, LexLt_trans hlex hm⟩

theorem depthPass_decrease (g : GrammarGraph) (m : String → WithTop ℕ)
    (h : (depthPass g m).2 = true) :
    LexLt (tcount g.ids (depthPass g m).1, fsum g.ids (depthPass g m).1)
      (tcount g.ids m, fsum g.ids m) := by
  rcases foldl_update_cases g g.ids (m, false) (fun _ hi => hi) with heq | ⟨_, hlex⟩
  · rw [depthPass, heq] at h
    cases h
  · exact hlex

/-- The `while changed` fixed-point loop of `calc_min_depths`
(process.py 67-78): keep making passes until a pass leaves every depth
unchanged. Terminates because every accepted update strictly decreases the
updated vertex's depth, which is bounded below by 0. -/
def min_depths_loop (g : GrammarGraph) (m : String → WithTop ℕ) : String → WithTop ℕ :=
  if h : (depthPass g m).2 = true then min_depths_loop g (depthPass g m).1 else m
termination_by (tcount g.ids m, fsum g.ids m)
decreasing_by
  rcases depthPass_decrease g m h with h1 | ⟨h1, h2⟩
  · exact Prod.Lex.left _ _ h1
  · have h1' : tcount g.ids (depthPass g m).1 = tcount g.ids m := h1
    have h2' : fsum g.ids (depthPass g m).1 < fsum g.ids m := h2
    rw [h1']
    exact Prod.Lex.right _ h2'

theorem loop_stop (g : GrammarGraph) (m : String → WithTop ℕ)
    (h : (depthPass g m).2 = false) : min_depths_loop g m = m := by
  rw [min_depths_loop]
  simp [h]

theorem loop_go (g : GrammarGraph) (m : String → WithTop ℕ)
    (h : (depthPass g m).2 = true) :
    min_depths_loop g m = min_depths_loop g (depthPass g m).1 := by
  rw [min_depths_loop]
  simp [h]

/-- `k` passes of the loop applied to `m`. -/
def pass_iter (g : GrammarGraph) : ℕ → (String → WithTop ℕ) → (String → WithTop ℕ)
  | 0, m => m
  | k + 1, m => pass_iter g k (depthPass g m).1

/-- The loop started at `m` runs exactly up to the first pass that changes
no depth. -/
def LoopConverges (g : GrammarGraph) (m : String → WithTop ℕ) : Prop :=
  ∃ k, min_depths_loop g m = pass_iter g k m ∧
    (depthPass g (pass_iter g k m)).2 = false ∧
    ∀ j, j < k → (depthPass g (pass_iter g j m)).2 = true

theorem converges_of_stop (g : GrammarGraph) (m : String → WithTop ℕ)
    (h : (depthPass g m).2 = false) : LoopConverges g m :=
  ⟨0, loop_stop g m h, h, fun j hj => absurd hj (Nat.not_lt_zero j)⟩

theorem converges_step (g : GrammarGraph) (m : String → WithTop ℕ)
    (hch : (depthPass g m).2 = true) (ih : LoopConverges g (depthPass g m).1) :
    LoopConverges g m := by
  obtain ⟨k, h1, h2, h3⟩ := ih
  refine ⟨k + 1, ?_, h2, ?_⟩
  · rw [loop_go g m hch]; exact h1
  · intro j hj
    cases j with
    | zero => exact hch
    | succ j' => exact h3 j' (by omega)

theorem loop_converges_aux (g : GrammarGraph) :
    ∀ t s (m : String → WithTop ℕ),
      tcount g.ids m ≤ t → fsum g.ids m ≤ s → LoopConverges g m := by
  intro t
  induction t with
  | zero =>
    intro s
    induction s with
    | zero =>
      intro m ht hs
      by_cases hch : (depthPass g m).2 = true
      · exfalso
        rcases depthPass_decrease g m hch with h1 | ⟨h1, h2⟩ <;> omega
      · exact converges_of_stop g m (by simpa using hch)
    | succ s ihs =>
      intro m ht hs
      by_cases hch : (depthPass g m).2 = true
      · rcases depthPass_decrease g m hch with h1 | ⟨h1, h2⟩
        · exfalso; omega
        · exact converges_step g m hch (ihs _ (by omega) (by omega))
      · exact converges_of_stop g m (by simpa using hch)
  | succ t iht =>
    intro s
    induction s with
    | zero =>
      intro m ht hs
      by_cases hch : (depthPass g m).2 = true
      · rcases depthPass_decrease g m hch with h1 | ⟨h1, h2⟩
        · exact converges_step g m hch
            (iht (fsum g.ids (depthPass g m).1) _ (by omega) le_rfl)
        · exfalso; omega
      · exact converges_of_stop g m (by simpa using hch)
    | succ s ihs =>
      intro m ht hs
      by_cases hch : (depthPass g m).2 = true
      · rcases depthPass_decrease g m hch with h1 | ⟨h1, h2⟩
        · exact converges_step g m hch
            (iht (fsum g.ids (depthPass g m).1) _ (by omega) le_rfl)
        · exact converges_step g m hch (ihs _ (by omega) (by omega))
      · exact converges_of_stop g m (by simpa using hch)

theorem loop_converges (g : GrammarGraph) : LoopConverges g (fun _ => ⊤) :=
  loop_converges_aux g (tcount g.ids (fun _ => ⊤)) (fsum g.ids (fun _ => ⊤)) _ le_rfl le_rfl

theorem foldl_update_le (g : GrammarGraph) :
    ∀ (l : List String) (st : (String → WithTop ℕ) × Bool) (j : String),
      ((l.foldl (updateVertex g) st).1) j ≤ st.1 j := by
  intro l
  induction l with
  | nil => intro st j; exact le_rfl
  | cons a t ih =>
    intro st j
    rw [List.foldl_cons]
    rcases updateVertex_cases g st a with ⟨_, heq⟩ | ⟨hlt, heq⟩
    · rw [heq]; exact ih st j
    · rw [heq]
      refine le_trans (ih _ j) ?_
      by_cases hj : j = a
      · subst hj; simp only [updMap, if_pos rfl]; exact le_of_lt hlt
      · simp only [updMap, if_neg hj]; exact le_rfl

/-- The monotone-nonincreasing invariant of the fixed point: every vertex's
stored depth is at least the value a rescan would compute from the current
neighbour depths. -/
def DepthInv (g : GrammarGraph) (m : String → WithTop ℕ) : Prop :=
  ∀ i, recompute g m i ≤ m i

theorem foldl_max_mono (l : List String) (f f' : String → WithTop ℕ) (a a' : WithTop ℕ)
    (ha : a' ≤ a) (h : ∀ c ∈ l, f' c ≤ f c) :
    (l.map f').foldl max a' ≤ (l.map f).foldl max a := by
  induction l generalizing a a' with
  | nil => simpa using ha
  | cons c t ih =>
    simp only [List.map_cons, List.foldl_cons]
    exact ih _ _ (max_le_max ha (h c (List.mem_cons_self c t)))
      (fun d hd => h d (List.mem_cons_of_mem c hd))

theorem foldl_min_mono (l : List String) (f f' : String → WithTop ℕ) (a a' : WithTop ℕ)
    (ha : a' ≤ a) (h : ∀ c ∈ l, f' c ≤ f c) :
    (l.map f').foldl min a' ≤ (l.map f).foldl min a := by
  induction l generalizing a a' with
  | nil => simpa using ha
  | cons c t ih =>
    simp only [List.map_cons, List.foldl_cons]
    exact ih _ _ (min_le_min ha (h c (List.mem_cons_self c t)))
      (fun d hd => h d (List.mem_cons_of_mem c hd))

theorem recompute_mono (g : GrammarGraph) (m m' : String → WithTop ℕ)
    (h : ∀ j, m' j ≤ m j) (i : String) : recompute g m' i ≤ recompute g m i := by
  unfold recompute
  have hterm : ∀ c ∈ rec_children g i, child_term g m' c ≤ child_term g m c :=
    fun c _ => add_le_add_right (h c) _
  by_cases hk : g.kind i = NodeKind.alternation
  · rw [if_pos hk, if_pos hk]
    by_cases he : (rec_children g i).isEmpty = true
    · rw [if_pos he, if_pos he]
    · rw [if_neg he, if_neg he]
      exact foldl_min_mono _ _ _ _ _ le_rfl hterm
  · rw [if_neg hk, if_neg hk]
    exact foldl_max_mono _ _ _ _ _ le_rfl hterm

theorem updMap_preserves_inv (g : GrammarGraph) (m : String → WithTop ℕ) (i : String)
    (hlt : recompute g m i < m i) (hinv : DepthInv g m) :
    DepthInv g (updMap m i (recompute g m i)) := by
  have hle : ∀ j, updMap m i (recompute g m i) j ≤ m j := by
    intro j
    by_cases hj : j = i
    · subst hj; simp only [updMap, if_pos rfl]; exact le_of_lt hlt
    · simp only [updMap, if_neg hj]; exact le_rfl
  have hmono := recompute_mono g m (updMap m i (recompute g m i)) hle
  intro j
  by_cases hj : j = i
  · subst hj
    refine le_trans (hmono j) ?_
    simp only [updMap, if_pos rfl]
    exact le_rfl
  · refine le_trans (hmono j) (le_trans (hinv j) ?_)
    simp only [updMap, if_neg hj]
    exact le_rfl

theorem foldl_update_inv (g : GrammarGraph) :
    ∀ (l : List String) (st : (String → WithTop ℕ) × Bool),
      DepthInv g st.1 → DepthInv g ((l.foldl (updateVertex g) st).1) := by
  intro l
  induction l with
  | nil => intro st h; exact h
  | cons a t ih =>
    intro st h
    rw [List.foldl_cons]
    rcases updateVertex_cases g st a with ⟨_, heq⟩ | ⟨hlt, heq⟩
    · rw [heq]; exact ih st h
    · rw [heq]
      exact ih _ (updMap_preserves_inv g st.1 a hlt h)

theorem pass_iter_inv (g : GrammarGraph) :
    ∀ (k : ℕ) (m : String → WithTop ℕ), DepthInv g m → DepthInv g (pass_iter g k m) := by
  intro k
  induction k with
  | zero => intro m h; exact h
  | succ k ih =>
    intro m h
    exact ih _ (foldl_update_inv g g.ids (m, false) h)

theorem depth_inv_top (g : GrammarGraph) : DepthInv g (fun _ => ⊤) :=
  fun _ => le_top

theorem foldl_update_unchanged (g : GrammarGraph) :
    ∀ (l : List String) (st : (String → WithTop ℕ) × Bool), st.2 = false →
      (l.foldl (updateVertex g) st).2 = false →
      ∀ i ∈ l, ¬ recompute g st.1 i < st.1 i := by
  intro l
  induction l with
  | nil => intro st _ _ i hi; cases hi
  | cons a t ih =>
    intro st hflag hres i hi
    rw [List.foldl_cons] at hres
    rcases updateVertex_cases g st a with ⟨hnlt, heq⟩ | ⟨hlt, heq⟩
    · rw [heq] at hres
      rcases List.mem_cons.mp hi with rfl | hit
      · exact hnlt
      · exact ih st hflag hres i hit
    · rw [heq] at hres
      have htrue := foldl_update_flag_mono g t (updMap st.1 a (recompute g st.1 a), true) rfl
      rw [hres] at htrue
      cases htrue

/-- At the loop's result, every tracked vertex's depth equals what a rescan
would recompute: the returned map is a fixed point of the update. -/
theorem fixpoint_recompute (g : GrammarGraph) (i : String) (hi : i ∈ g.ids) :
    min_depths_loop g (fun _ => ⊤) i =
      recompute g (min_depths_loop g (fun _ => ⊤)) i := by
  obtain ⟨k, hk, hstop, _⟩ := loop_converges g
  have hinv : DepthInv g (min_depths_loop g (fun _ => ⊤)) := by
    rw [hk]; exact pass_iter_inv g k _ (depth_inv_top g)
  have h0 : (depthPass g (min_depths_loop g (fun _ => ⊤))).2 = false := by
    rw [hk]; exact hstop
  have hnlt := foldl_update_unchanged g g.ids (min_depths_loop g (fun _ => ⊤), false)
    rfl h0 i hi
  exact le_antisymm (not_lt.mp hnlt) (hinv i)

/-- A value of the output table of `calc_min_depths`: a plain minimum depth,
or (for an `AlternationNode` after the lifting loop, process.py 80-84) the
vector of its alternatives' depths. -/
inductive Val
  | scalar (d : WithTop ℕ)
  | vec (ds : List (WithTop ℕ))
deriving DecidableEq

/-- The lifting loop of `calc_min_depths` (process.py 80-84): replace every
`AlternationNode` entry by the list of its out-neighbours' depths, asserting
that each of those depths is finite (`'{ident} has an alternative that
isn't reachable.'`). Other entries keep their scalar depth. -/
def lift_alternations (g : GrammarGraph) (D : String → WithTop ℕ) :
    List String → Except String (List (String × Val))
  | [] => Except.ok []
  | i :: rest =>
    if g.kind i = NodeKind.alternation then
      if (g.out i).all (fun c => decide (D c < ⊤)) then
        match lift_alternations g D rest with
        | Except.error e => Except.error e
        | Except.ok t => Except.ok ((i, Val.vec ((g.out i).map D)) :: t)
      else
        Except.error (i ++ " has an alternative that isn\x27t reachable.")
    else
      match lift_alternations g D rest with
      | Except.error e => Except.error e
      | Except.ok t => Except.ok ((i, Val.scalar (D i)) :: t)

/-- The removal loop of `calc_min_depths` (process.py 87-91): delete every
`AlternativeNode` entry and assert that each remaining entry is not `inf`
(`'Rule with infinite derivation: %s'`); a lifted vector entry never equals
`inf`. -/
def drop_alternatives (g : GrammarGraph) :
    List (String × Val) → Except String (List (String × Val))
  | [] => Except.ok []
  | (i, v) :: rest =>
    if g.kind i = NodeKind.alternative then drop_alternatives g rest
    else if v = Val.scalar ⊤ then Except.error ("Rule with infinite derivation: " ++ i)
    else
      match drop_alternatives g rest with
      | Except.error e => Except.error e
      | Except.ok t => Except.ok ((i, v) :: t)

/-- `GrammarGraph.calc_min_depths` (process.py 65-93): run the fixed point
from all-`inf`, lift the alternations, drop the alternatives and check for
infinite derivations. The two post-processing loops run over the dict's
keys; an error models a failed `assert`. -/
def calc_min_depths (g : GrammarGraph) : Except String (List (String × Val)) :=
  match lift_alternations g (min_depths_loop g (fun _ => ⊤)) g.ids with
  | Except.error e => Except.error e
  | Except.ok lifted => drop_alternatives g lifted

/-- The entry the lifting loop keeps for vertex `i`. -/
def lift_entry (g : GrammarGraph) (D : String → WithTop ℕ) (i : String) : String × Val :=
  if g.kind i = NodeKind.alternation then (i, Val.vec ((g.out i).map D))
  else (i, Val.scalar (D i))

theorem lift_ok_eq (g : GrammarGraph) (D : String → WithTop ℕ) :
    ∀ (l : List String) (lifted : List (String × Val)),
      lift_alternations g D l = Except.ok lifted → lifted = l.map (lift_entry g D) := by
  intro l
  induction l with
  | nil =>
    intro lifted h
    cases h
    rfl
  | cons a t ih =>
    intro lifted h
    unfold lift_alternations at h
    by_cases hka : g.kind a = NodeKind.alternation
    · rw [if_pos hka] at h
      by_cases hall : (g.out a).all (fun c => decide (D c < ⊤)) = true
      · rw [if_pos hall] at h
        cases hrec : lift_alternations g D t with
        | error e => rw [hrec] at h; cases h
        | ok tl =>
          rw [hrec] at h
          injection h with h'
          rw [← h', List.map_cons, ih tl hrec, lift_entry, if_pos hka]
      · rw [if_neg hall] at h; cases h
    · rw [if_neg hka] at h
      cases hrec : lift_alternations g D t with
      | error e => rw [hrec] at h; cases h
      | ok tl =>
        rw [hrec] at h
        injection h with h'
        rw [← h', List.map_cons, ih tl hrec, lift_entry, if_neg hka]

theorem drop_ok_of_mem (g : GrammarGraph) :
    ∀ (l t : List (String × Val)), drop_alternatives g l = Except.ok t →
      ∀ p ∈ l, ¬ g.kind p.1 = NodeKind.alternative → p ∈ t := by
  intro l
  induction l with
  | nil => intro t h p hp; cases hp
  | cons a rest ih =>
    intro t h p hp hk
    unfold drop_alternatives at h
    rcases List.mem_cons.mp hp with rfl | hpt
    · rw [if_neg hk] at h
      by_cases hv : p.2 = Val.scalar ⊤
      · rw [if_pos hv] at h; cases h
      · rw [if_neg hv] at h
        cases hrec : drop_alternatives g rest with
        | error e => rw [hrec] at h; cases h
        | ok tl =>
          rw [hrec] at h
          injection h with h'
          rw [← h']
          exact List.mem_cons_self _ _
    · by_cases hka : g.kind a.1 = NodeKind.alternative
      · rw [if_pos hka] at h
        exact ih t h p hpt hk
      · rw [if_neg hka] at h
        by_cases hv : a.2 = Val.scalar ⊤
        · rw [if_pos hv] at h; cases h
        · rw [if_neg hv] at h
          cases hrec : drop_alternatives g rest with
          | error e => rw [hrec] at h; cases h
          | ok tl =>
            rw [hrec] at h
            injection h with h'
            rw [← h']
            exact List.mem_cons_of_mem _ (ih tl hrec p hpt hk)

theorem drop_mem_of_ok (g : GrammarGraph) :
    ∀ (l t : List (String × Val)), drop_alternatives g l = Except.ok t →
      ∀ p ∈ t, p ∈ l ∧ ¬ g.kind p.1 = NodeKind.alternative := by
  intro l
  induction l with
  | nil =>
    intro t h p hp
    cases h
    cases hp
  | cons a rest ih =>
    intro t h p hp
    unfold drop_alternatives at h
    by_cases hka : g.kind a.1 = NodeKind.alternative
    · rw [if_pos hka] at h
      obtain ⟨h1, h2⟩ := ih t h p hp
      exact ⟨List.mem_cons_of_mem _ h1, h2⟩
    · rw [if_neg hka] at h
      by_cases hv : a.2 = Val.scalar ⊤
      · rw [if_pos hv] at h; cases h
      · rw [if_neg hv] at h
        cases hrec : drop_alternatives g rest with
        | error e => rw [hrec] at h; cases h
        | ok tl =>
          rw [hrec] at h
          injection h with h'
          rw [← h'] at hp
          rcases List.mem_cons.mp hp with rfl | hpt
          · exact ⟨List.mem_cons_self _ _, hka⟩
          · obtain ⟨h1, h2⟩ := ih tl hrec p hpt
            exact ⟨List.mem_cons_of_mem _ h1, h2⟩

theorem drop_err_of_top (g : GrammarGraph) :
    ∀ (l : List (String × Val)) (i : String), (i, Val.scalar ⊤) ∈ l →
      ¬ g.kind i = NodeKind.alternative →
      ∀ t, ¬ drop_alternatives g l = Except.ok t := by
  intro l
  induction l with
  | nil => intro i hi; cases hi
  | cons a rest ih =>
    intro i hi hk t h
    unfold drop_alternatives at h
    rcases List.mem_cons.mp hi with heq | hit
    · rw [← heq] at h
      rw [if_neg hk, if_pos rfl] at h
      cases h
    · by_cases hka : g.kind a.1 = NodeKind.alternative
      · rw [if_pos hka] at h
        exact ih i hit hk t h
      · rw [if_neg hka] at h
        by_cases hv : a.2 = Val.scalar ⊤
        · rw [if_pos hv] at h; cases h
        · rw [if_neg hv] at h
          cases hrec : drop_alternatives g rest with
          | error e => rw [hrec] at h; cases h
          | ok tl => exact ih i hit hk tl hrec

theorem lift_error_shape (g : GrammarGraph) (D : String → WithTop ℕ) :
    ∀ (l : List String) (e : String), lift_alternations g D l = Except.error e →
      ∃ i, g.kind i = NodeKind.alternation ∧
        e = i ++ " has an alternative that isn\x27t reachable." := by
  intro l
  induction l with
  | nil => intro e h; cases h
  | cons a t ih =>
    intro e h
    unfold lift_alternations at h
    by_cases hka : g.kind a = NodeKind.alternation
    · rw [if_pos hka] at h
      by_cases hall : (g.out a).all (fun c => decide (D c < ⊤)) = true
      · rw [if_pos hall] at h
        cases hrec : lift_alternations g D t with
        | error e2 =>
          rw [hrec] at h
          injection h with h'
          obtain ⟨i, hi1, hi2⟩ := ih e2 hrec
          exact ⟨i, hi1, h' ▸ hi2⟩
        | ok tl => rw [hrec] at h; cases h
      · rw [if_neg hall] at h
        injection h with h'
        exact ⟨a, hka, h'.symm⟩
    · rw [if_neg hka] at h
      cases hrec : lift_alternations g D t with
      | error e2 =>
        rw [hrec] at h
        injection h with h'
        obtain ⟨i, hi1, hi2⟩ := ih e2 hrec
        exact ⟨i, hi1, h' ▸ hi2⟩
      | ok tl => rw [hrec] at h; cases h

theorem drop_error_shape (g : GrammarGraph) :
    ∀ (l : List (String × Val)) (e : String),
      drop_alternatives g l = Except.error e →
      ∃ i, (i, Val.scalar ⊤) ∈ l ∧ ¬ g.kind i = NodeKind.alternative ∧
        e = "Rule with infinite derivation: " ++ i := by
  intro l
  induction l with
  | nil => intro e h; cases h
  | cons a rest ih =>
    intro e h
    unfold drop_alternatives at h
    by_cases hka : g.kind a.1 = NodeKind.alternative
    · rw [if_pos hka] at h
      obtain ⟨i, h1, h2, h3⟩ := ih e h
      exact ⟨i, List.mem_cons_of_mem a h1, h2, h3⟩
    · rw [if_neg hka] at h
      by_cases hv : a.2 = Val.scalar ⊤
      · rw [if_pos hv] at h
        injection h with h'
        refine ⟨a.1, ?_, hka, h'.symm⟩
        have : a = (a.1, Val.scalar ⊤) := by
          rw [← hv]
        rw [← this]
        exact List.mem_cons_self a rest
      · rw [if_neg hv] at h
        cases hrec : drop_alternatives g rest with
        | error e2 =>
          rw [hrec] at h
          injection h with h'
          obtain ⟨i, h1, h2, h3⟩ := ih e2 hrec
          exact ⟨i, List.mem_cons_of_mem a h1, h2, h' ▸ h3⟩
        | ok tl => rw [hrec] at h; cases h

/-- A concrete model instance used by the witnesses: the grammar graph the
emitter builds for the combined grammar `grammar R; r : 'a' | 'b' ;`
(an `EOF` rule vertex, the rule `r`, one alternation `alt_0` with two
alternatives; the string literals add no vertices). The `ids` list is the
dict key order of the model instance, here listed leaves first. -/
def Gw : GrammarGraph where
  ids := ["alt_0_0", "alt_0_1", "alt_0", "r", "EOF"]
  kind := fun i =>
    if i = "alt_0" then NodeKind.alternation
    else if i = "alt_0_0" ∨ i = "alt_0_1" then NodeKind.alternative
    else NodeKind.rule
  out := fun i =>
    if i = "alt_0" then ["alt_0_0", "alt_0_1"]
    else if i = "r" then ["alt_0"]
    else []

theorem Gw_loop_eval : min_depths_loop Gw (fun _ => ⊤) = (depthPass Gw (fun _ => ⊤)).1 := by
  rw [loop_go Gw (fun _ => ⊤) (by decide)]
  exact loop_stop Gw _ (by decide)

/-- The output table of `calc_min_depths` on `Gw`. -/
def Gw_T : List (String × Val) :=
  [("alt_0", Val.vec [0, 0]), ("r", Val.scalar 0), ("EOF", Val.scalar 0)]

theorem Gw_calc_eval : calc_min_depths Gw = Except.ok Gw_T := by
  unfold calc_min_depths
  rw [Gw_loop_eval]
  rfl

/-- A concrete model instance with an infinite derivation: the graph of
`grammar R; r : r ;` without its `EOF` vertex — a single rule vertex whose
only out-neighbour is itself. -/
def Ginf : GrammarGraph where
  ids := ["r"]
  kind := fun _ => NodeKind.rule
  out := fun i => if i = "r" then ["r"] else []

theorem Ginf_loop_eval : min_depths_loop Ginf (fun _ => ⊤) = (fun _ => ⊤) :=
  loop_stop Ginf _ (by decide)

/-- Claim C1: the depth map computed by `calc_min_depths`'s fixed-point
loop satisfies the depth equations: a vertex with no outgoing edges has
depth 0; a non-Alternation vertex's depth is the `max` over its
non-Quantifier out-neighbours of the child's depth plus 1 for a Rule
child (0 for an empty aggregation); an Alternation vertex (all of whose
out-neighbours are its Alternative children) has depth the minimum of its
children's depths. -/
theorem calc_min_depths_fixpoint_equations (g : GrammarGraph) (i : String)
    (hi : i ∈ g.ids) :
    (g.out i = [] → min_depths_loop g (fun _ => ⊤) i = 0) ∧
    (¬ g.kind i = NodeKind.alternation →
      min_depths_loop g (fun _ => ⊤) i =
        ((rec_children g i).map
          (fun c => min_depths_loop g (fun _ => ⊤) c +
            (if g.kind c = NodeKind.rule then 1 else 0))).foldl max 0) ∧
    (g.kind i = NodeKind.alternation →
      (∀ c ∈ g.out i, g.kind c = NodeKind.alternative) → ¬ g.out i = [] →
      min_depths_loop g (fun _ => ⊤) i =
        ((g.out i).map (fun c => min_depths_loop g (fun _ => ⊤) c)).foldl min ⊤) := by
  refine ⟨?_, ?_, ?_⟩
  · intro hout
    rw [fixpoint_recompute g i hi]
    unfold recompute
    by_cases hk : g.kind i = NodeKind.alternation <;>
      simp [rec_children, hout, hk]
  · intro hk
    rw [fixpoint_recompute g i hi]
    unfold recompute
    rw [if_neg hk]
    rfl
  · intro hk hch hne
    rw [fixpoint_recompute g i hi]
    unfold recompute
    rw [if_pos hk]
    have hfil : rec_children g i = g.out i := by
      unfold rec_children
      apply List.filter_eq_self.mpr
      intro c hc
      simp [hch c hc]
    rw [hfil]
    have hne2 : ¬ (g.out i).isEmpty = true := by
      cases hout : g.out i with
      | nil => exact absurd hout hne
      | cons a t => simp
    rw [if_neg hne2]
    congr 1
    apply List.map_congr_left
    intro c hc
    unfold child_term
    rw [hch c hc]
    simp

/-- Witness for C1 at the concrete graph `Gw` and its vertex `r`. -/
theorem calc_min_depths_fixpoint_equations_witness :
    ("r" ∈ Gw.ids) ∧
    ((Gw.out "r" = [] → min_depths_loop Gw (fun _ => ⊤) "r" = 0) ∧
     (¬ Gw.kind "r" = NodeKind.alternation →
       min_depths_loop Gw (fun _ => ⊤) "r" =
         ((rec_children Gw "r").map
           (fun c => min_depths_loop Gw (fun _ => ⊤) c +
             (if Gw.kind c = NodeKind.rule then 1 else 0))).foldl max 0) ∧
     (Gw.kind "r" = NodeKind.alternation →
       (∀ c ∈ Gw.out "r", Gw.kind c = NodeKind.alternative) → ¬ Gw.out "r" = [] →
       min_depths_loop Gw (fun _ => ⊤) "r" =
         ((Gw.out "r").map (fun c => min_depths_loop Gw (fun _ => ⊤) c)).foldl min ⊤)) :=
  ⟨by decide, calc_min_depths_fixpoint_equations Gw "r" (by decide)⟩

/-- Claim C2: whenever `calc_min_depths` returns a table, every Alternation
vertex's entry is the vector of its Alternative children's depths, with
exactly one entry per outgoing Alternative edge in declaration order, and
no Alternative vertex remains in the table. -/
theorem calc_min_depths_lifts_alternations (g : GrammarGraph)
    (t : List (String × Val)) (i : String)
    (hok : calc_min_depths g = Except.ok t)
    (hi : i ∈ g.ids) (hkind : g.kind i = NodeKind.alternation)
    (hch : ∀ c ∈ g.out i, g.kind c = NodeKind.alternative) :
    ((i, Val.vec ((g.out i).map (fun c => min_depths_loop g (fun _ => ⊤) c))) ∈ t) ∧
    (∀ v, (i, v) ∈ t →
      v = Val.vec ((g.out i).map (fun c => min_depths_loop g (fun _ => ⊤) c))) ∧
    (((g.out i).map (fun c => min_depths_loop g (fun _ => ⊤) c)).length =
      (g.out i).length) ∧
    (∀ p ∈ t, ¬ g.kind p.1 = NodeKind.alternative) := by
  unfold calc_min_depths at hok
  cases hlift : lift_alternations g (min_depths_loop g (fun _ => ⊤)) g.ids with
  | error e => rw [hlift] at hok; cases hok
  | ok lifted =>
    rw [hlift] at hok
    have hl := lift_ok_eq g _ g.ids lifted hlift
    have hnotalt : ¬ g.kind i = NodeKind.alternative := by
      rw [hkind]; intro hc; cases hc
    refine ⟨?_, ?_, List.length_map _ _, ?_⟩
    · refine drop_ok_of_mem g lifted t hok _ ?_ hnotalt
      rw [hl]
      refine List.mem_map.mpr ⟨i, hi, ?_⟩
      unfold lift_entry
      rw [if_pos hkind]
    · intro v hv
      obtain ⟨hmem_l, _⟩ := drop_mem_of_ok g lifted t hok (i, v) hv
      rw [hl] at hmem_l
      obtain ⟨j, hj, hje⟩ := List.mem_map.mp hmem_l
      have hfst : (lift_entry g (min_depths_loop g (fun _ => ⊤)) j).1 = j := by
        unfold lift_entry
        by_cases hkj : g.kind j = NodeKind.alternation <;> simp [hkj]
      have hji : j = i := by rw [← hfst, hje]
      subst hji
      rw [lift_entry, if_pos hkind] at hje
      have := congrArg Prod.snd hje
      simp only at this
      rw [← this]
    · intro p hp
      exact (drop_mem_of_ok g lifted t hok p hp).2

/-- Witness for C2 at the concrete graph `Gw`, its alternation `alt_0` and
the computed table `Gw_T`. -/
theorem calc_min_depths_lifts_alternations_witness :
    (calc_min_depths Gw = Except.ok Gw_T) ∧ ("alt_0" ∈ Gw.ids) ∧
    (Gw.kind "alt_0" = NodeKind.alternation) ∧
    (∀ c ∈ Gw.out "alt_0", Gw.kind c = NodeKind.alternative) ∧
    ((("alt_0",
        Val.vec ((Gw.out "alt_0").map (fun c => min_depths_loop Gw (fun _ => ⊤) c))) ∈
        Gw_T) ∧
     (∀ v, ("alt_0", v) ∈ Gw_T →
       v = Val.vec ((Gw.out "alt_0").map (fun c => min_depths_loop Gw (fun _ => ⊤) c))) ∧
     (((Gw.out "alt_0").map (fun c => min_depths_loop Gw (fun _ => ⊤) c)).length =
       (Gw.out "alt_0").length) ∧
     (∀ p ∈ Gw_T, ¬ Gw.kind p.1 = NodeKind.alternative)) :=
  ⟨Gw_calc_eval, by decide, rfl, by decide,
    calc_min_depths_lifts_alternations Gw Gw_T "alt_0" Gw_calc_eval (by decide) rfl
      (by decide)⟩

/-- Claim C3 as amended: if a Rule vertex's depth is still `inf` after the
fixed point converges, `calc_min_depths` aborts with an error instead of
returning a table, and the failed assert's message names an offending
vertex: either a vertex of infinite minimum depth (`Rule with infinite
derivation: …` — the infinite rule itself when it is the only such vertex)
or an alternation one of whose alternatives is unreachable (which, when
present, may be named instead of the rule — see the counterexample to the
unamended claim). -/
theorem calc_min_depths_infinite_rule_error (g : GrammarGraph) (r : String)
    (hr : r ∈ g.ids) (hk : g.kind r = NodeKind.rule)
    (hinf : min_depths_loop g (fun _ => ⊤) r = ⊤) :
    ∃ e, calc_min_depths g = Except.error e ∧
      ((∃ i, g.kind i = NodeKind.alternation ∧
        e = i ++ " has an alternative that isn\x27t reachable.") ∨
       (∃ i, ¬ g.kind i = NodeKind.alternative ∧
        min_depths_loop g (fun _ => ⊤) i = ⊤ ∧
        e = "Rule with infinite derivation: " ++ i)) := by
  unfold calc_min_depths
  cases hlift : lift_alternations g (min_depths_loop g (fun _ => ⊤)) g.ids with
  | error e =>
    obtain ⟨i, hi1, hi2⟩ := lift_error_shape g _ g.ids e hlift
    exact ⟨e, rfl, Or.inl ⟨i, hi1, hi2⟩⟩
  | ok lifted =>
    have hl := lift_ok_eq g _ g.ids lifted hlift
    have hnotaltn : ¬ g.kind r = NodeKind.alternation := by
      rw [hk]; intro hc; cases hc
    have hnotalt : ¬ g.kind r = NodeKind.alternative := by
      rw [hk]; intro hc; cases hc
    have hmem : (r, Val.scalar ⊤) ∈ lifted := by
      rw [hl]
      refine List.mem_map.mpr ⟨r, hr, ?_⟩
      unfold lift_entry
      rw [if_neg hnotaltn, hinf]
    show ∃ e, drop_alternatives g lifted = Except.error e ∧ _
    cases hdrop : drop_alternatives g lifted with
    | error e =>
      obtain ⟨i, hi1, hi2, hi3⟩ := drop_error_shape g lifted e hdrop
      refine ⟨e, rfl, Or.inr ⟨i, hi2, ?_, hi3⟩⟩
      rw [hl] at hi1
      obtain ⟨j, hj, hje⟩ := List.mem_map.mp hi1
      have hfst : (lift_entry g (min_depths_loop g (fun _ => ⊤)) j).1 = j := by
        unfold lift_entry
        by_cases hkj : g.kind j = NodeKind.alternation <;> simp [hkj]
      have hji : j = i := by rw [← hfst, hje]
      subst hji
      unfold lift_entry at hje
      by_cases hkj : g.kind j = NodeKind.alternation
      · rw [if_pos hkj] at hje
        have := congrArg Prod.snd hje
        simp only at this
        cases this
      · rw [if_neg hkj] at hje
        have := congrArg Prod.snd hje
        simp only at this
        injection this
    | ok t => exact absurd hdrop (drop_err_of_top g lifted r hmem hnotalt t)

/-- Witness for C3 at the concrete graph `Ginf` (the self-recursive rule
`r : r ;`). -/
theorem calc_min_depths_infinite_rule_error_witness :
    ("r" ∈ Ginf.ids) ∧ (Ginf.kind "r" = NodeKind.rule) ∧
    (min_depths_loop Ginf (fun _ => ⊤) "r" = ⊤) ∧
    (∃ e, calc_min_depths Ginf = Except.error e ∧
      ((∃ i, Ginf.kind i = NodeKind.alternation ∧
        e = i ++ " has an alternative that isn\x27t reachable.") ∨
       (∃ i, ¬ Ginf.kind i = NodeKind.alternative ∧
        min_depths_loop Ginf (fun _ => ⊤) i = ⊤ ∧
        e = "Rule with infinite derivation: " ++ i))) :=
  ⟨by decide, rfl, by rw [Ginf_loop_eval],
    calc_min_depths_infinite_rule_error Ginf "r" (by decide) rfl
      (by rw [Ginf_loop_eval])⟩

/-- The grammar graph the emitter builds for `grammar S; s : 'x' | r ;
r : r ;` (without the unused `EOF` vertex's edges): rule `s` has an
alternation whose second alternative references the self-recursive rule
`r`. As in `Gw`, the `ids` list is the dict key order of the model
instance, listed so that the fixed point is reached within one changing
pass. -/
def Gce : GrammarGraph where
  ids := ["alt_0_0", "alt_0_1", "r", "alt_0", "s", "EOF"]
  kind := fun i =>
    if i = "alt_0" then NodeKind.alternation
    else if i = "alt_0_0" ∨ i = "alt_0_1" then NodeKind.alternative
    else NodeKind.rule
  out := fun i =>
    if i = "alt_0" then ["alt_0_0", "alt_0_1"]
    else if i = "s" then ["alt_0"]
    else if i = "alt_0_1" ∨ i = "r" then ["r"]
    else []

theorem Gce_loop_eval : min_depths_loop Gce (fun _ => ⊤) = (depthPass Gce (fun _ => ⊤)).1 := by
  rw [loop_go Gce (fun _ => ⊤) (by decide)]
  exact loop_stop Gce _ (by decide)

theorem Gce_calc_eval :
    calc_min_depths Gce =
      Except.error ("alt_0 has an alternative that isn\x27t reachable.") := by
  unfold calc_min_depths
  rw [Gce_loop_eval]
  rfl

/-- Claim C3 counterexample, refuting the unamended claim on the grammar
`s : 'x' | r ; r : r ;`: rule `r` remains at `inf` after convergence and
the compilation aborts, but the assert that fires is the lifting loop's,
and the error names the alternation `alt_0` — not the rule. -/
theorem infinite_rule_names_alternation_counterexample :
    (Gce.kind "r" = NodeKind.rule) ∧ ("r" ∈ Gce.ids) ∧
    (min_depths_loop Gce (fun _ => ⊤) "r" = ⊤) ∧
    (calc_min_depths Gce =
      Except.error ("alt_0 has an alternative that isn\x27t reachable.")) ∧
    (¬ calc_min_depths Gce = Except.error ("Rule with infinite derivation: r")) := by
  refine ⟨rfl, by decide, ?_, Gce_calc_eval, ?_⟩
  · rw [Gce_loop_eval]
    decide
  · rw [Gce_calc_eval]
    intro hc
    injection hc with h'
    exact absurd h' (by decide)

/-- Claim C4: the fixed-point loop of `calc_min_depths` terminates: a pass
never increases any depth, each accepted per-vertex update strictly
decreases the updated vertex's depth, all depths are bounded below by 0,
the iteration starts from all-`inf`, and the loop's result is the first
iterate at which a full pass changes no depth. -/
theorem calc_min_depths_terminates (g : GrammarGraph) :
    (∀ (m : String → WithTop ℕ) (i : String), (depthPass g m).1 i ≤ m i) ∧
    (∀ (st : (String → WithTop ℕ) × Bool) (i : String),
      updateVertex g st i = st ∨
        ((updateVertex g st i).1 i < st.1 i ∧ (updateVertex g st i).2 = true)) ∧
    (∀ (m : String → WithTop ℕ) (i : String), (0 : WithTop ℕ) ≤ m i) ∧
    (pass_iter g 0 (fun _ => ⊤) = fun _ => ⊤) ∧
    (∃ k, min_depths_loop g (fun _ => ⊤) = pass_iter g k (fun _ => ⊤) ∧
      (depthPass g (pass_iter g k (fun _ => ⊤))).2 = false ∧
      ∀ j, j < k → (depthPass g (pass_iter g j (fun _ => ⊤))).2 = true) := by
  refine ⟨?_, ?_, ?_, rfl, loop_converges g⟩
  · intro m i
    exact foldl_update_le g g.ids (m, false) i
  · intro st i
    rcases updateVertex_cases g st i with ⟨_, heq⟩ | ⟨hlt, heq⟩
    · left; exact heq
    · right
      rw [heq]
      refine ⟨?_, rfl⟩
      simp only [updMap, if_pos rfl]
      exact hlt
  · intro m i
    exact zero_le (m i)

/-- The emitter state of `FuzzerGenerator` that the embedded fragments
touch (process.py 96-135): the grammar graph (as node and edge lists, in
registration order), the monotone `code_id` counter, the indentation level
and the `code_chunks` placeholder table. -/
structure EmitSt where
  nodes : List (String × NodeKind)
  edges : List (String × String)
  code_id : ℕ
  indent_level : ℕ
  code_chunks : List (String × String)
deriving DecidableEq

/-- The all-empty emitter state. -/
def emptyEmitSt : EmitSt :=
  { nodes := [], edges := [], code_id := 0, indent_level := 0, code_chunks := [] }

/-- `FuzzerGenerator.line` (process.py 124-125): indent and terminate a
source line; an empty (falsy) `src` yields a bare newline. -/
def line (st : EmitSt) (src : String) : String :=
  if src = "" then "\n" else String.mk (List.replicate st.indent_level ' ') ++ src ++ "\n"

/-- `FuzzerGenerator.new_code_id` (process.py 127-130). -/
def new_code_id (ty : String) (st : EmitSt) : String × EmitSt :=
  (ty ++ "_" ++ toString st.code_id, { st with code_id := st.code_id + 1 })

/-- Entering a `with self.indent()` block (process.py 118-122). -/
def indented (st : EmitSt) : EmitSt :=
  { st with indent_level := st.indent_level + 4 }

/-- The `quant_args` dict of `generate_single` (process.py 464); a suffix
outside the dict raises a `KeyError`. -/
def quantifier_args (sfx : String) : Option String :=
  if sfx = "?" then some "min=0, max=1"
  else if sfx = "*" then some "min=0, max=inf"
  else if sfx = "+" then some "min=1, max=inf"
  else none

/-- The suffixed-element branch of `FuzzerGenerator.generate_single`
(process.py 456-472), given the already-extracted suffix text: for `?` and
`*` register a fresh Quantifier vertex and an edge from the parent and make
it the new parent id; emit the `if self.max_depth >= …:` guard (`0` for
`+`, the parent placeholder otherwise) and the `model.quantify` loop; then
emit the child through the abstract recursive emitter `rec` (standing for
`generate_single(node.children[0], parent_id)`), restoring the indent. -/
def handle_suffixed_element (rec : String → EmitSt → EmitSt × String)
    (sfx parent_id : String) (st : EmitSt) : Except String (EmitSt × String) :=
  let reg :=
    if sfx = "?" ∨ sfx = "*" then
      let (qn, stq) := new_code_id "quant" st
      (qn, { stq with
              nodes := stq.nodes ++ [(qn, NodeKind.quantifier)],
              edges := stq.edges ++ [(parent_id, qn)] })
    else (parent_id, st)
  match quantifier_args sfx with
  | none => Except.error "KeyError"
  | some args =>
    let res0 := line reg.2
      ("if self.max_depth >= " ++
        (if sfx = "+" then "0" else "\x7b" ++ reg.1 ++ "\x7d") ++ ":")
    let res1 := line (indented reg.2) ("for _ in self.model.quantify(" ++ args ++ "):")
    let inner := rec reg.1 (indented (indented reg.2))
    Except.ok ({ inner.1 with indent_level := st.indent_level },
      res0 ++ res1 ++ inner.2 ++ "\n")

/-- The state after the suffixed-element branch registers a Quantifier
vertex `quant_<code_id>` under parent `pid`. -/
def quant_state (pid : String) (st : EmitSt) : EmitSt :=
  { st with
    code_id := st.code_id + 1,
    nodes := st.nodes ++ [("quant_" ++ toString st.code_id, NodeKind.quantifier)],
    edges := st.edges ++ [(pid, "quant_" ++ toString st.code_id)] }

/-- The `conditions` list comprehension of the alternation branch of
`generate_single` (process.py 389): a fresh `cond_<i>` id per alternative,
paired with `find_conditions` of the alternative (abstracted as `conds`). -/
def gen_conditions {α : Type} (conds : α → String) :
    List α → EmitSt → EmitSt × List (String × String)
  | [], st => (st, [])
  | c :: cs, st =>
    let idst := new_code_id "cond" st
    let rest := gen_conditions conds cs idst.2
    (rest.1, (idst.1, conds c) :: rest.2)

/-- The `for i, child in enumerate(children)` loop of the alternation
branch (process.py 394-401): register an Alternative vertex and edge per
arm, emit the `if/elif choice == i:` dispatch, recurse into the arm at the
deeper indent (an arm that emits no code gets a `pass`). -/
def gen_alternatives {α : Type} (rec : α → String → EmitSt → EmitSt × String)
    (alt_name : String) : ℕ → List α → EmitSt → String → EmitSt × String
  | _, [], st, acc => (st, acc)
  | i, c :: cs, st, acc =>
    let an := alt_name ++ "_" ++ toString i
    let st1 := { st with
      nodes := st.nodes ++ [(an, NodeKind.alternative)],
      edges := st.edges ++ [(alt_name, an)] }
    let acc1 := acc ++ line st1 ((if i = 0 then "if" else "elif") ++ " choice == " ++ toString i ++ ":")
    let inner := rec c an (indented st1)
    let innerOrPass := if inner.2 = "" then line (indented st1) "pass" else inner.2
    let st2 := { inner.1 with indent_level := st1.indent_level }
    gen_alternatives rec alt_name (i + 1) cs st2 (acc1 ++ innerOrPass)

/-- The alternation-list branch of `FuzzerGenerator.generate_single`
(process.py 380-402), shared by `RuleAltListContext`, `AltListContext` and
`LexerAltListContext`: filter the parse-tree children down to the
alternatives (`raw` holds `none` for the `|` terminals), and with exactly
one alternative recurse directly into it under the unchanged parent id;
otherwise register an Alternation vertex, emit the `model.choice` call over
the per-alternative weights and dispatch over the arms. -/
def gen_alt_list {α : Type} (rec : α → String → EmitSt → EmitSt × String)
    (conds : α → String) (raw : List (Option α)) (parent_id : String) (st : EmitSt) :
    EmitSt × String :=
  match raw.filterMap id with
  | [c] => rec c parent_id st
  | children =>
    let named := new_code_id "alt" st
    let st1 := { named.2 with
      nodes := named.2.nodes ++ [(named.1, NodeKind.alternation)],
      edges := named.2.edges ++ [(parent_id, named.1)] }
    let condres := gen_conditions conds children st1
    let st2 := { condres.1 with code_chunks := condres.1.code_chunks ++ condres.2 }
    let weights := String.intercalate ", "
      (condres.2.map (fun p => "\x7b" ++ p.1 ++ "\x7d"))
    let res := line st2
      ("choice = self.model.choice('" ++ named.1 ++
        "', [0 if \x7b" ++ named.1 ++
        "\x7d[i] > self.max_depth else w for i, w in enumerate([" ++ weights ++ "])])")
    gen_alternatives rec named.1 0 children st2 res

/-- Whether the raw text of a string literal contains the two characters
`\u` (python `'\\u' in start`, process.py 202-203). -/
def hasBackslashU : List Char → Bool
  | '\\' :: 'u' :: _ => true
  | _ :: rest => hasBackslashU rest
  | [] => false

/-- python `start.replace('\\u', '0x')`: replace every (non-overlapping)
occurrence of the two characters `\u` by `0x`. -/
def replaceBSU : List Char → List Char
  | '\\' :: 'u' :: rest => '0' :: 'x' :: replaceBSU rest
  | c :: rest => c :: replaceBSU rest
  | [] => []

/-- The value of one hexadecimal digit (0 for a non-digit; the claims only
apply this to well-formed hexadecimal text). -/
def hexDigitVal (c : Char) : ℕ :=
  if '0' ≤ c ∧ c ≤ '9' then c.toNat - 48
  else if 'a' ≤ c ∧ c ≤ 'f' then c.toNat - 87
  else if 'A' ≤ c ∧ c ≤ 'F' then c.toNat - 55
  else 0

def hexAcc : ℕ → List Char → ℕ
  | acc, [] => acc
  | acc, c :: rest => hexAcc (16 * acc + hexDigitVal c) rest

/-- python `int(s, 16)` on the strings reaching it here: an optional `0x`
and hexadecimal digits. -/
def pyIntHex (s : String) : ℕ :=
  match s.toList with
  | '0' :: 'x' :: rest => hexAcc 0 rest
  | l => hexAcc 0 l

/-- python `ord(s)`; `ord` demands a single character, which is all the
embedded call sites pass it. -/
def pyOrd (s : String) : ℕ :=
  match s.toList with
  | [c] => c.toNat
  | _ => 0

/-- python `str(node.STRING_LITERAL(k))[1:-1]`: the literal without its
surrounding quotes. -/
def stripQuotes (s : String) : String :=
  String.mk ((s.toList.drop 1).dropLast)

/-- `FuzzerGenerator.character_range_interval` (process.py 197-203), taking
the raw texts of the two quoted `STRING_LITERAL`s of `'a'..'z'`: an
endpoint written with `\u` is parsed as hexadecimal after replacing `\u`
by `0x`, otherwise `ord` is used — and only in the latter case does the
upper endpoint get the `+ 1`. -/
def character_range_interval (lit0 lit1 : String) : ℕ × ℕ :=
  ( if hasBackslashU (stripQuotes lit0).toList then
      pyIntHex (String.mk (replaceBSU (stripQuotes lit0).toList))
    else pyOrd (stripQuotes lit0),
    if hasBackslashU (stripQuotes lit1).toList then
      pyIntHex (String.mk (replaceBSU (stripQuotes lit1).toList))
    else pyOrd (stripQuotes lit1) + 1 )

/-- The `characterRange` atom branch of `generate_single`
(process.py 501-506): record the computed interval into
`current_start_range` when inside a lexer rule (the accumulator is not
`None`), and emit a draw from `range(start, end)`. -/
def emit_character_range (st : EmitSt) (csr : Option (List (ℕ × ℕ)))
    (lit0 lit1 : String) : Option (List (ℕ × ℕ)) × String :=
  let iv := character_range_interval lit0 lit1
  ( match csr with
    | some l => some (l ++ [iv])
    | none => none,
    line st ("current += self.create_node(UnlexerRule(src=self.char_from_list(range(" ++
      toString iv.1 ++ ", " ++ toString iv.2 ++ "))))") )

/-- The grammar type of a `grammarSpec`: whether the `lexer` or `parser`
keyword is present (`grammarType().LEXER()` / `grammarType().PARSER()`),
or neither (a combined grammar). -/
inductive GrammarType
  | lexerG
  | parserG
  | combinedG
deriving DecidableEq

def GrammarType.hasParserKw : GrammarType → Bool
  | GrammarType.parserG => true
  | _ => false

def GrammarType.hasLexerKw : GrammarType → Bool
  | GrammarType.lexerG => true
  | _ => false

/-- A rule of `generator_rules` as the `default_rule` emission sees it:
whether it is a `parserRuleSpec` (with a `RULE_REF` token) and its name. -/
structure GRule where
  isParserRule : Bool
  name : String
deriving DecidableEq

/-- `generator_rules[0].RULE_REF()`: only a parser-rule context has the
`RULE_REF` method; on a lexer-rule context the attribute access raises
`AttributeError` (modelled as `none`). -/
def pyRuleRef (r : GRule) : Option String :=
  if r.isParserRule then some r.name else none

/-- The tail of `FuzzerGenerator.generate_grammar` (process.py 330-332):
when the `parser` keyword is present, or neither `lexer` nor `parser` is,
append `self.line('default_rule = {name}\n')` (at indent 4) with
`name = generator_rules[0].RULE_REF()` to the already-emitted class body;
an empty rule list raises `IndexError`, a leading lexer rule
`AttributeError`. -/
def generate_grammar_body (gt : GrammarType) (generator_rules : List GRule)
    (rules_src : String) : Except String String :=
  if gt.hasParserKw || !(gt.hasLexerKw || gt.hasParserKw) then
    match generator_rules with
    | [] => Except.error "IndexError"
    | r0 :: _ =>
      match pyRuleRef r0 with
      | some nm => Except.ok (rules_src ++ ("    default_rule = " ++ nm ++ "\n\n"))
      | none => Except.error "AttributeError"
  else Except.ok rules_src

/-- Witness for C4 at the concrete graph `Gw`. -/
theorem calc_min_depths_terminates_witness :
    (∀ (m : String → WithTop ℕ) (i : String), (depthPass Gw m).1 i ≤ m i) ∧
    (∀ (st : (String → WithTop ℕ) × Bool) (i : String),
      updateVertex Gw st i = st ∨
        ((updateVertex Gw st i).1 i < st.1 i ∧ (updateVertex Gw st i).2 = true)) ∧
    (∀ (m : String → WithTop ℕ) (i : String), (0 : WithTop ℕ) ≤ m i) ∧
    (pass_iter Gw 0 (fun _ => ⊤) = fun _ => ⊤) ∧
    (∃ k, min_depths_loop Gw (fun _ => ⊤) = pass_iter Gw k (fun _ => ⊤) ∧
      (depthPass Gw (pass_iter Gw k (fun _ => ⊤))).2 = false ∧
      ∀ j, j < k → (depthPass Gw (pass_iter Gw j (fun _ => ⊤))).2 = true) :=
  calc_min_depths_terminates Gw

/-- Claim C5: for an element with an EBNF suffix, the emitter registers a
Quantifier vertex (with an edge from the parent) for `?` and `*` but not
for `+`; the emitted guard is `if self.max_depth >= 0:` for `+` and
`if self.max_depth >= \x7bquant_i\x7d:` — the fresh quantifier's
placeholder, which also becomes the parent id of the recursion —
otherwise; and the emitted `model.quantify` arguments are `min=0, max=1`
for `?`, `min=0, max=inf` for `*` and `min=1, max=inf` for `+`. -/
theorem ebnf_suffix_emission (rec : String → EmitSt → EmitSt × String)
    (pid : String) (st : EmitSt) :
    (handle_suffixed_element rec "?" pid st =
      Except.ok
        ({ (rec ("quant_" ++ toString st.code_id)
              (indented (indented (quant_state pid st)))).1 with
            indent_level := st.indent_level },
          line (quant_state pid st)
            ("if self.max_depth >= " ++
              ("\x7b" ++ ("quant_" ++ toString st.code_id) ++ "\x7d") ++ ":") ++
          line (indented (quant_state pid st))
            "for _ in self.model.quantify(min=0, max=1):" ++
          (rec ("quant_" ++ toString st.code_id)
            (indented (indented (quant_state pid st)))).2 ++ "\n")) ∧
    (handle_suffixed_element rec "*" pid st =
      Except.ok
        ({ (rec ("quant_" ++ toString st.code_id)
              (indented (indented (quant_state pid st)))).1 with
            indent_level := st.indent_level },
          line (quant_state pid st)
            ("if self.max_depth >= " ++
              ("\x7b" ++ ("quant_" ++ toString st.code_id) ++ "\x7d") ++ ":") ++
          line (indented (quant_state pid st))
            "for _ in self.model.quantify(min=0, max=inf):" ++
          (rec ("quant_" ++ toString st.code_id)
            (indented (indented (quant_state pid st)))).2 ++ "\n")) ∧
    (handle_suffixed_element rec "+" pid st =
      Except.ok
        ({ (rec pid (indented (indented st))).1 with indent_level := st.indent_level },
          line st "if self.max_depth >= 0:" ++
          line (indented st) "for _ in self.model.quantify(min=1, max=inf):" ++
          (rec pid (indented (indented st))).2 ++ "\n")) :=
  ⟨rfl, rfl, rfl⟩

/-- Witness for C5: the three emission equations at a concrete recursive
emitter, parent id and state. -/
theorem ebnf_suffix_emission_witness :
    (handle_suffixed_element (fun p s => (s, "ref:" ++ p)) "?" "r" emptyEmitSt =
      Except.ok
        ({ ((fun p s => (s, "ref:" ++ p)) ("quant_" ++ toString emptyEmitSt.code_id)
              (indented (indented (quant_state "r" emptyEmitSt)))).1 with
            indent_level := emptyEmitSt.indent_level },
          line (quant_state "r" emptyEmitSt)
            ("if self.max_depth >= " ++
              ("\x7b" ++ ("quant_" ++ toString emptyEmitSt.code_id) ++ "\x7d") ++ ":") ++
          line (indented (quant_state "r" emptyEmitSt))
            "for _ in self.model.quantify(min=0, max=1):" ++
          ((fun p s => (s, "ref:" ++ p)) ("quant_" ++ toString emptyEmitSt.code_id)
            (indented (indented (quant_state "r" emptyEmitSt)))).2 ++ "\n")) ∧
    (handle_suffixed_element (fun p s => (s, "ref:" ++ p)) "*" "r" emptyEmitSt =
      Except.ok
        ({ ((fun p s => (s, "ref:" ++ p)) ("quant_" ++ toString emptyEmitSt.code_id)
              (indented (indented (quant_state "r" emptyEmitSt)))).1 with
            indent_level := emptyEmitSt.indent_level },
          line (quant_state "r" emptyEmitSt)
            ("if self.max_depth >= " ++
              ("\x7b" ++ ("quant_" ++ toString emptyEmitSt.code_id) ++ "\x7d") ++ ":") ++
          line (indented (quant_state "r" emptyEmitSt))
            "for _ in self.model.quantify(min=0, max=inf):" ++
          ((fun p s => (s, "ref:" ++ p)) ("quant_" ++ toString emptyEmitSt.code_id)
            (indented (indented (quant_state "r" emptyEmitSt)))).2 ++ "\n")) ∧
    (handle_suffixed_element (fun p s => (s, "ref:" ++ p)) "+" "r" emptyEmitSt =
      Except.ok
        ({ ((fun p s => (s, "ref:" ++ p)) "r" (indented (indented emptyEmitSt))).1 with
            indent_level := emptyEmitSt.indent_level },
          line emptyEmitSt "if self.max_depth >= 0:" ++
          line (indented emptyEmitSt) "for _ in self.model.quantify(min=1, max=inf):" ++
          ((fun p s => (s, "ref:" ++ p)) "r" (indented (indented emptyEmitSt))).2 ++ "\n")) :=
  ebnf_suffix_emission (fun p s => (s, "ref:" ++ p)) "r" emptyEmitSt

/-- Claim C6 (code bug): the interval computed by
`character_range_interval` is `(lo, hi + 1)` only when the upper endpoint
is written as a plain character; for a `\u`-escaped upper endpoint the
`+ 1` is missing. `'a'..'z'` yields `(97, 123)`, but the same range with the upper endpoint
written as the escape `z` (the code point of `z`) yields `(97, 122)`,
and the recorded start range and the emitted `range(…)` draw exclude the
endpoint. -/
theorem character_range_unicode_end_bug :
    character_range_interval "'a'" "'z'" = (97, 123) ∧
    character_range_interval "'a'" "'\\u007A'" = (97, 122) ∧
    character_range_interval "'a'" "'\\u007A'" ≠ character_range_interval "'a'" "'z'" ∧
    (emit_character_range emptyEmitSt (some []) "'a'" "'\\u007A'").1 = some [(97, 122)] ∧
    (emit_character_range emptyEmitSt (some []) "'a'" "'\\u007A'").2 =
      "current += self.create_node(UnlexerRule(src=self.char_from_list(range(97, 122))))\n" := by
  refine ⟨by decide, by decide, by decide, by decide, by decide⟩

/-- Claim C7 counterexample: a combined grammar whose first rule is a lexer
rule. The claim predicts a class body ending in `default_rule = r` (the
first parser rule); the code instead fails on
`generator_rules[0].RULE_REF()` with an `AttributeError` and emits
nothing. -/
theorem default_rule_first_rule_counterexample :
    ¬ ∃ b, generate_grammar_body GrammarType.combinedG
        [{ isParserRule := false, name := "T" }, { isParserRule := true, name := "r" }]
        "" = Except.ok b ∧ b.endsWith "default_rule = r\n\n" = true := by
  rintro ⟨b, hb, -⟩
  rw [show generate_grammar_body GrammarType.combinedG
      [{ isParserRule := false, name := "T" }, { isParserRule := true, name := "r" }]
      "" = Except.error "AttributeError" from rfl] at hb
  cases hb

/-- Claim C7 as amended: for a parser or combined grammar whose first rule
is a parser rule, the emitted class body ends with the trailing assignment
`default_rule = <name>` naming that first rule (hence the first parser
rule); for a pure lexer grammar no assignment is appended; and for a
parser or combined grammar whose first rule is a lexer rule the emission
fails with an `AttributeError`. -/
theorem default_rule_tail_amended (gt : GrammarType) (r0 : GRule) (rest : List GRule)
    (body : String) :
    (¬ gt = GrammarType.lexerG → r0.isParserRule = true →
      generate_grammar_body gt (r0 :: rest) body =
        Except.ok (body ++ ("    default_rule = " ++ r0.name ++ "\n\n"))) ∧
    (generate_grammar_body GrammarType.lexerG (r0 :: rest) body = Except.ok body) ∧
    (¬ gt = GrammarType.lexerG → r0.isParserRule = false →
      generate_grammar_body gt (r0 :: rest) body = Except.error "AttributeError") := by
  refine ⟨?_, rfl, ?_⟩
  · intro hgt hpr
    cases gt with
    | lexerG => exact absurd rfl hgt
    | parserG => simp [generate_grammar_body, pyRuleRef, hpr, GrammarType.hasParserKw, GrammarType.hasLexerKw]
    | combinedG => simp [generate_grammar_body, pyRuleRef, hpr, GrammarType.hasParserKw, GrammarType.hasLexerKw]
  · intro hgt hpr
    cases gt with
    | lexerG => exact absurd rfl hgt
    | parserG => simp [generate_grammar_body, pyRuleRef, hpr, GrammarType.hasParserKw, GrammarType.hasLexerKw]
    | combinedG => simp [generate_grammar_body, pyRuleRef, hpr, GrammarType.hasParserKw, GrammarType.hasLexerKw]

/-- Witness for the amended C7 at a combined grammar whose first rule is
the parser rule `r`. -/
theorem default_rule_tail_amended_witness :
    (¬ GrammarType.combinedG = GrammarType.lexerG) ∧
    ((GRule.mk true "r").isParserRule = true) ∧
    generate_grammar_body GrammarType.combinedG
        [GRule.mk true "r", GRule.mk false "T"] "BODY\n" =
      Except.ok ("BODY\n" ++ ("    default_rule = " ++ (GRule.mk true "r").name ++ "\n\n")) :=
  ⟨by decide, rfl,
    (default_rule_tail_amended GrammarType.combinedG (GRule.mk true "r")
      [GRule.mk false "T"] "BODY\n").1 (by decide) rfl⟩

/-- Claim C8: an alternation list with exactly one alternative is emitted
by recursing directly into the single alternative under the unchanged
parent id — the handler allocates no Alternation or Alternative vertex and
emits no `model.choice` call of its own (the result is exactly the
recursive emission of the child). -/
theorem single_alternative_inline {α : Type} (rec : α → String → EmitSt → EmitSt × String)
    (conds : α → String) (raw : List (Option α)) (c : α) (parent_id : String)
    (st : EmitSt) (h : raw.filterMap id = [c]) :
    gen_alt_list rec conds raw parent_id st = rec c parent_id st := by
  unfold gen_alt_list
  rw [h]

/-- How python's `str.format_map` renders a merged depth value: a finite
depth prints as the integer, `inf` as `inf`, a lifted vector as a python
list. -/
def render_depth : WithTop ℕ → String
  | ⊤ => "inf"
  | (n : ℕ) => toString n

def render_val : Val → String
  | Val.scalar d => render_depth d
  | Val.vec ds => "[" ++ String.intercalate ", " (ds.map render_depth) ++ "]"

/-- The worker of `str.format_map` over the assembled source text: a
`\x7b` opens a placeholder, at the closing `\x7d` the name is looked up
(a missing key is python's `KeyError`, `none` here) and its value spliced
in; the accumulator holds the pending name, reversed. The assembled source
contains no escaped braces. -/
def format_map_chars (tbl : String → Option String) :
    List Char → Option (List Char) → Option (List Char)
  | [], none => some []
  | [], some _ => none
  | c :: rest, none =>
    if c = '\x7b' then format_map_chars tbl rest (some [])
    else (format_map_chars tbl rest none).map (fun t => c :: t)
  | c :: rest, some acc =>
    if c = '\x7d' then
      match tbl (String.mk acc.reverse) with
      | some v => (format_map_chars tbl rest none).map (fun t => v.toList ++ t)
      | none => none
    else format_map_chars tbl rest (some (c :: acc))

/-- `text.format_map(table)` (process.py 252). -/
def format_map (s : String) (tbl : String → Option String) : Option String :=
  (format_map_chars tbl s.toList none).map String.mk

/-- A key lookup in `code_chunks` after `dict.update`: the latest binding
wins. -/
def chunk_lookup (chunks : List (String × String)) (k : String) : Option String :=
  (chunks.reverse.find? (fun p => decide (p.1 = k))).map (fun p => p.2)

/-- What `FuzzerGenerator.generate` (process.py 244-252) holds once the
tree walk over the grammar roots is done: the generator class name, the
text buffers (`generate_prefixes`' two prefixes and the two accumulated
buffers) and the placeholder table written by the walk, and the grammar
graph the walk registered. -/
structure GenState where
  generator_name : String
  header_pfx : String
  body_pfx : String
  generator_header : String
  generator_body : String
  code_chunks : List (String × String)
  graph : GrammarGraph

/-- An observable file-system effect of a compilation. -/
inductive FSEvent
  | written (path : String) (content : String)
deriving DecidableEq

/-- The tail of `FuzzerGenerator.generate` (process.py 249-252): merge the
depth solver's output into `code_chunks`, then substitute every
placeholder of the assembled `header + body` text. `calc_min_depths` may
abort, and a placeholder missing from the table raises `KeyError`. -/
def generate (st : GenState) : Except String String :=
  match calc_min_depths st.graph with
  | Except.error e => Except.error e
  | Except.ok tbl =>
    match format_map
        (st.header_pfx ++ st.generator_header ++ "\n\n" ++ st.body_pfx ++
          st.generator_body)
        (chunk_lookup (st.code_chunks ++ tbl.map (fun p => (p.1, render_val p.2)))) with
    | some s => Except.ok s
    | none => Except.error "KeyError"

/-- `FuzzerFactory.generate_fuzzer` (process.py 561-586) from the point
where the grammar roots are parsed: run the generator and only then open
and write `<work_dir>/<generator_name>.py`; the returned list is the
file-system activity of the call. -/
def generate_fuzzer (st : GenState) (work_dir : String) : Except String (List FSEvent) :=
  match generate st with
  | Except.error e => Except.error e
  | Except.ok src =>
    Except.ok [FSEvent.written (work_dir ++ "/" ++ st.generator_name ++ ".py") src]

/-- One observable step of the emitter walk that touches
`token_start_ranges`: finishing a lexer rule stores its start range under
the rule's name (process.py 374-375), and resolving a negated token
reference looks a name up (process.py 237-240). -/
inductive WalkEvent
  | defineToken (name : String) (rng : List (ℕ × ℕ))
  | queryToken (name : String)
deriving DecidableEq

/-- A rule as the walk-order model sees it: its name, whether it is a
lexer rule, the `~TOKEN` references its body resolves through
`chars_from_set` (in body order), and its computed start range. -/
structure SRule where
  name : String
  isLexer : Bool
  negatedTokenRefs : List String
  startRange : List (ℕ × ℕ)
deriving DecidableEq

structure SGrammar where
  rules : List SRule
deriving DecidableEq

/-- The `token_start_ranges` events of one rule: the body's lookups happen
while the rule is walked, and a lexer rule's own entry is stored at the
end of the rule (process.py 374-376). -/
def ruleEvents (r : SRule) : List WalkEvent :=
  r.negatedTokenRefs.map WalkEvent.queryToken ++
    (if r.isLexer then [WalkEvent.defineToken r.name r.startRange] else [])

/-- The events of a whole grammar root, rule by rule (process.py 326-328). -/
def grammarEvents (gr : SGrammar) : List WalkEvent :=
  (gr.rules.map ruleEvents).flatten

/-- `FuzzerGenerator.generate` (process.py 244-247): `for root in
[lexer_root, parser_root]` — the lexer (or combined) root is walked before
the parser root. -/
def generate_walk (lexer_root parser_root : Option SGrammar) : List WalkEvent :=
  (match lexer_root with
    | some gr => grammarEvents gr
    | none => []) ++
  (match parser_root with
    | some gr => grammarEvents gr
    | none => [])

/-- Replaying events over the `token_start_ranges` dict (newest binding in
front; a query does not change the table). -/
def applyEvent (tsr : List (String × List (ℕ × ℕ))) :
    WalkEvent → List (String × List (ℕ × ℕ))
  | WalkEvent.defineToken n r => (n, r) :: tsr
  | WalkEvent.queryToken _ => tsr

def runEvents (tsr : List (String × List (ℕ × ℕ))) (evs : List WalkEvent) :
    List (String × List (ℕ × ℕ)) :=
  evs.foldl applyEvent tsr

/-- The `TOKEN_REF` branch of `FuzzerGenerator.chars_from_set`
(process.py 237-240): `assert src in token_start_ranges` and return the
stored ranges. -/
def chars_from_set_token_ref (tsr : List (String × List (ℕ × ℕ))) (src : String) :
    Except String (List (ℕ × ℕ)) :=
  match tsr.find? (fun p => decide (p.1 = src)) with
  | some p => Except.ok p.2
  | none => Except.error (src ++ " not in token_start_ranges.")

/-- `T` is a key of the table. -/
def hasKey (tsr : List (String × List (ℕ × ℕ))) (T : String) : Prop :=
  ∃ p, tsr.find? (fun q => decide (q.1 = T)) = some p

theorem hasKey_apply (T : String) (e : WalkEvent) (tsr : List (String × List (ℕ × ℕ)))
    (h : hasKey tsr T) : hasKey (applyEvent tsr e) T := by
  cases e with
  | queryToken n => exact h
  | defineToken n r =>
    by_cases hn : n = T
    · exact ⟨(n, r), List.find?_cons_of_pos _ (by simp [hn])⟩
    · obtain ⟨p, hp⟩ := h
      refine ⟨p, ?_⟩
      rw [show applyEvent tsr (WalkEvent.defineToken n r) = (n, r) :: tsr from rfl,
        List.find?_cons_of_neg _ (by simp [hn])]
      exact hp

theorem hasKey_run (T : String) :
    ∀ (evs : List WalkEvent) (tsr : List (String × List (ℕ × ℕ))),
      hasKey tsr T → hasKey (runEvents tsr evs) T := by
  intro evs
  induction evs with
  | nil => intro tsr h; exact h
  | cons e rest ih => intro tsr h; exact ih _ (hasKey_apply T e tsr h)

theorem hasKey_of_define (T : String) (rg : List (ℕ × ℕ)) :
    ∀ (evs : List WalkEvent) (tsr : List (String × List (ℕ × ℕ))),
      WalkEvent.defineToken T rg ∈ evs → hasKey (runEvents tsr evs) T := by
  intro evs
  induction evs with
  | nil => intro tsr h; cases h
  | cons e rest ih =>
    intro tsr h
    rcases List.mem_cons.mp h with heq | hmem
    · refine hasKey_run T rest _ ?_
      rw [← heq]
      exact ⟨(T, rg), List.find?_cons_of_pos _ (by simp)⟩
    · exact ih _ hmem

theorem runEvents_append (tsr : List (String × List (ℕ × ℕ)))
    (l1 l2 : List WalkEvent) :
    runEvents tsr (l1 ++ l2) = runEvents (runEvents tsr l1) l2 :=
  List.foldl_append ..

/-- Witness for C8: a one-alternative list (with a `|` terminal child)
delegates to the recursive emitter unchanged. -/
theorem single_alternative_inline_witness :
    ([Option.some 0, Option.none].filterMap id = [0]) ∧
    gen_alt_list (fun (_ : ℕ) p s => (s, "ref:" ++ p)) (fun _ => "1")
        [Option.some 0, Option.none] "r" emptyEmitSt =
      (fun (_ : ℕ) p s => (s, "ref:" ++ p)) 0 "r" emptyEmitSt :=
  ⟨by decide,
    single_alternative_inline (fun (_ : ℕ) p s => (s, "ref:" ++ p)) (fun _ => "1")
      [Option.some 0, Option.none] 0 "r" emptyEmitSt (by decide)⟩

/-- Claim C9: no partial output: on every error path of the compilation
`generate_fuzzer` performs no file write at all, and a write happens only
with the completely assembled source (walk, depth solving and placeholder
substitution all finished) as its content. -/
theorem generate_fuzzer_no_partial_output (st : GenState) (work_dir : String) :
    (∀ e, generate st = Except.error e →
      generate_fuzzer st work_dir = Except.error e) ∧
    (∀ evs, generate_fuzzer st work_dir = Except.ok evs →
      ∃ src, generate st = Except.ok src ∧
        evs = [FSEvent.written (work_dir ++ "/" ++ st.generator_name ++ ".py") src]) := by
  constructor
  · intro e he
    unfold generate_fuzzer
    rw [he]
  · intro evs hev
    unfold generate_fuzzer at hev
    cases hgen : generate st with
    | error e => rw [hgen] at hev; cases hev
    | ok src =>
      rw [hgen] at hev
      injection hev with h'
      exact ⟨src, rfl, h'.symm⟩

theorem Ginf_calc_eval :
    calc_min_depths Ginf = Except.error "Rule with infinite derivation: r" := by
  unfold calc_min_depths
  rw [Ginf_loop_eval]
  rfl

/-- A concrete walk result whose grammar graph contains the infinite rule
of `Ginf`: its compilation must abort. -/
def GenSt9 : GenState :=
  { generator_name := "RGenerator", header_pfx := "", body_pfx := "",
    generator_header := "", generator_body := "", code_chunks := [], graph := Ginf }

theorem GenSt9_eval : generate GenSt9 = Except.error "Rule with infinite derivation: r" := by
  unfold generate
  rw [show GenSt9.graph = Ginf from rfl, Ginf_calc_eval]

/-- Witness for C9: the aborting compilation of `GenSt9` produces an error
and no file event. -/
theorem generate_fuzzer_no_partial_output_witness :
    (generate GenSt9 = Except.error "Rule with infinite derivation: r") ∧
    (generate_fuzzer GenSt9 "out" = Except.error "Rule with infinite derivation: r") :=
  ⟨GenSt9_eval,
    (generate_fuzzer_no_partial_output GenSt9 "out").1 _ GenSt9_eval⟩

/-- Claim C10: `generate` walks the lexer (or combined) root before the
parser root; therefore whenever `chars_from_set` resolves a negated token
reference `~TOKEN` while the parser grammar is walked and the token is
defined by a lexer rule of the lexer grammar, the token's name is already
a key of `token_start_ranges` at that moment and the internal assert
cannot fire: the lookup returns a stored range. -/
theorem negated_token_reference_resolved (lex par : SGrammar) (T : String)
    (pre post : List WalkEvent) (r : SRule)
    (hsplit : grammarEvents par = pre ++ WalkEvent.queryToken T :: post)
    (hr : r ∈ lex.rules) (hlex : r.isLexer = true) (hname : r.name = T) :
    (generate_walk (some lex) (some par) = grammarEvents lex ++ grammarEvents par) ∧
    ∃ rng, chars_from_set_token_ref
        (runEvents [] (grammarEvents lex ++ pre)) T = Except.ok rng := by
  refine ⟨rfl, ?_⟩
  have hmem : WalkEvent.defineToken T r.startRange ∈ grammarEvents lex := by
    unfold grammarEvents
    refine List.mem_flatten.mpr ⟨ruleEvents r, List.mem_map.mpr ⟨r, hr, rfl⟩, ?_⟩
    unfold ruleEvents
    rw [hlex, hname]
    simp
  have hkey : hasKey (runEvents [] (grammarEvents lex ++ pre)) T := by
    rw [runEvents_append]
    exact hasKey_run T pre _ (hasKey_of_define T r.startRange (grammarEvents lex) [] hmem)
  obtain ⟨p, hp⟩ := hkey
  refine ⟨p.2, ?_⟩
  unfold chars_from_set_token_ref
  rw [hp]

/-- Witness for C10: a lexer grammar defining token `AB` and a parser
grammar resolving `~AB`. -/
theorem negated_token_reference_resolved_witness :
    (grammarEvents (SGrammar.mk [SRule.mk "p" false ["AB"] []]) =
      [] ++ WalkEvent.queryToken "AB" ::
        ([] : List WalkEvent)) ∧
    ((SRule.mk "AB" true [] [(97, 99)]) ∈
      (SGrammar.mk [SRule.mk "AB" true [] [(97, 99)]]).rules) ∧
    ((SRule.mk "AB" true [] [(97, 99)]).isLexer = true) ∧
    ((SRule.mk "AB" true [] [(97, 99)]).name = "AB") ∧
    ((generate_walk (some (SGrammar.mk [SRule.mk "AB" true [] [(97, 99)]]))
        (some (SGrammar.mk [SRule.mk "p" false ["AB"] []])) =
      grammarEvents (SGrammar.mk [SRule.mk "AB" true [] [(97, 99)]]) ++
        grammarEvents (SGrammar.mk [SRule.mk "p" false ["AB"] []])) ∧
     ∃ rng, chars_from_set_token_ref
        (runEvents [] (grammarEvents (SGrammar.mk [SRule.mk "AB" true [] [(97, 99)]]) ++ []))
        "AB" = Except.ok rng) :=
  ⟨by decide, by decide, rfl, rfl,
    negated_token_reference_resolved
      (SGrammar.mk [SRule.mk "AB" true [] [(97, 99)]])
      (SGrammar.mk [SRule.mk "p" false ["AB"] []]) "AB" [] []
      (SRule.mk "AB" true [] [(97, 99)]) (by decide) (by decide) rfl rfl⟩

end Grammarinator
